import Mathlib

/-!
Verification development for the Ot2Rec batch-processing pipeline
(`src/Ot2Rec/motioncorr.py`, `src/Ot2Rec/align.py`, `src/Ot2Rec/main.py`).

The Python code keeps its tables as pandas DataFrames; here a table is a
`List` of rows, filesystem state is an explicit predicate
`String → Bool` (the value of `os.path.isfile` at the moment the code
queries it), and every subprocess result is a record of the observable
boundary data (exit code, captured streams).  Each definition mirrors one
method or code block of the source, named after it.
-/

namespace Ot2Rec

/-- One row of the motion-correction metadata table: the tilt-series id
(column `ts`) and the deterministic output path (column `output`, set by
`Motioncorr._set_output_path`).  Other columns do not take part in the
reconciliation logic. -/
structure Row where
  ts : Nat
  output : String
deriving DecidableEq, Repr

namespace Motioncorr

/-- Source `motioncorr.py` line 96: `self._missing`, the rows of the output record
whose output file is missing from disk. -/
def missingRows (isfile : String → Bool) (metaOut : List Row) : List Row :=
  metaOut.filter (fun r => !isfile r.output)

/-- Source `motioncorr.py` lines 97-103: `self._missing_specified`, built by
appending, for each `curr_ts` in `process_list`, the missing rows whose
`ts` equals `curr_ts`. -/
def missingSpecified (isfile : String → Bool) (metaOut : List Row)
    (processList : List Nat) : List Row :=
  (processList.map
    (fun t => (missingRows isfile metaOut).filter (fun r => r.ts == t))).flatten

/-- Source `motioncorr.py` lines 104-105: the left merge with indicator keeps
exactly the `meta_out` rows that do not match (on all columns) any row of
`_missing_specified`. -/
def reinstateDone (isfile : String → Bool) (metaOut : List Row)
    (processList : List Nat) : List Row :=
  metaOut.filter (fun r => !(missingSpecified isfile metaOut processList).contains r)

/-- Source `motioncorr.py` line 112: `_ignored`, the input-metadata rows whose
output path is already in the output record. -/
def ignoredRows (meta metaOut : List Row) : List Row :=
  meta.filter (fun r => (metaOut.map Row.output).contains r.output)

/-- Source `motioncorr.py` lines 115-117: `no_processes` is set when
`len(_ignored) == len(self.meta)`. -/
def noProcesses (meta metaOut : List Row) : Bool :=
  (ignoredRows meta metaOut).length == meta.length

/-- Source `motioncorr.py` line 119: drop from the input metadata the rows whose
output path is in the output record. -/
def dropProcessed (meta metaOut : List Row) : List Row :=
  meta.filter (fun r => !(metaOut.map Row.output).contains r.output)

/-- Source `motioncorr.py` lines 83-91: the output record read back from
`<proj>_mc2_mdout.yaml`, or an empty table when the file does not exist.
No deduplication is applied. -/
def loadRecord (record : Option (List Row)) : List Row :=
  record.getD []

/-- Result of `Motioncorr._check_processed_images`: the reinstated output
record, the remaining input metadata, the `no_processes` flag, and the
reinstatement count reported by the log line at lines 107-109. -/
structure ReconcileResult where
  metaOut : List Row
  meta : List Row
  allDone : Bool
  reinstatedCount : Nat
deriving Repr, DecidableEq

/-- Method `Motioncorr._check_processed_images` (lines 78-119), with the record
file content passed in as `record` (`none` when the yaml file is absent)
and the filesystem passed in as `isfile`. -/
def checkProcessedImages (isfile : String → Bool) (meta : List Row)
    (record : Option (List Row)) (processList : List Nat) : ReconcileResult :=
  let metaOut0 := loadRecord record
  let metaOut1 := reinstateDone isfile metaOut0 processList
  { metaOut := metaOut1
    meta := dropProcessed meta metaOut1
    allDone := noProcesses meta metaOut1
    reinstatedCount := (missingSpecified isfile metaOut0 processList).length }

/-- Source `motioncorr.py` line 65: `self.meta = self.meta.assign(gpu=self.use_gpu[0])`.
Every row of the metadata receives the first entry of the free-GPU list as
its `gpu` column, once, at initialisation.  (`_get_gpu_nvidia_smi` raises
when the free list is empty, so `use_gpu` is non-empty here.) -/
def assignGpu (meta : List Row) (useGpu : List Nat) : List (Row × Nat) :=
  meta.map (fun r => (r, useGpu.headD 0))

/-- The assignment policy in the specification's words, for comparison with
`assignGpu`: item `i` receives device `d_(i mod k)` by round-robin over the
free list `d_0 .. d_(k-1)`. -/
def specRoundRobinAssign (meta : List Row) (useGpu : List Nat) : List (Row × Nat) :=
  meta.enum.map (fun p => (p.2, useGpu.getD (p.1 % useGpu.length) 0))

/-- Method `Motioncorr._yield_chunks` (lines 223-230): the first element of the
iterator chained with the next `size - 1` elements, repeated until the
iterator is exhausted. -/
def yieldChunks : List α → Nat → List (List α)
  | [], _ => []
  | x :: xs, size => (x :: xs.take (size - 1)) :: yieldChunks (xs.drop (size - 1)) size
termination_by l => l.length
decreasing_by
  simp only [List.length_drop, List.length_cons]
  omega

/-- Source `motioncorr.py` line 260: the chunk size handed to `_yield_chunks`,
`len(self.use_gpu) * self.params['System']['jobs_per_gpu']`. -/
def concurrencyBound (useGpu : List Nat) (jobsPerGpu : Nat) : Nat :=
  useGpu.length * jobsPerGpu

/-- The observable boundary data of one spawned MotionCor2 process.
`Popen(cmd, stdout=PIPE, stderr=STDOUT)` merges the error stream into
`stdout`, so the only captured text is the combined output returned by
`communicate()[0]`. -/
structure McProc where
  exitCode : Nat
  stdout : String
deriving DecidableEq, Repr

/-- The mutable state of a `Motioncorr` object during `run_mc2`: the input
metadata (`self.meta`, the pending set), the output metadata
(`self.meta_out`, the done table), the serialised content of
`<proj>_mc2_mdout.yaml` (`persisted`), and the harvest log (`self.log`). -/
structure McState where
  meta : List Row
  metaOut : List Row
  persisted : List Row
  log : List String
deriving DecidableEq, Repr

/-- Method `Motioncorr.update_mc2_metadata` (lines 269-282): rows of the input
metadata whose output file now exists are appended to the output metadata
and removed from the input metadata.  (The same filter is also applied to
the `_curr_meta` view; it carries no extra state and is omitted.) -/
def updateMc2Metadata (isfile : String → Bool) (s : McState) : McState :=
  { s with
    metaOut := s.metaOut ++ s.meta.filter (fun r => isfile r.output)
    meta := s.meta.filter (fun r => !isfile r.output) }

/-- Method `Motioncorr.export_metadata` (lines 284-292): serialise the output
metadata to `<proj>_mc2_mdout.yaml`, overwriting the whole file. -/
def exportMetadata (s : McState) : McState :=
  { s with persisted := s.metaOut }

/-- One iteration of the harvest loop of `run_mc2` (lines 263-267):
`process.communicate()[0]` is appended to the log, then
`update_mc2_metadata` and `export_metadata` run.  `isfile` is the
filesystem at the moment this iteration queries it.  The exit code of the
process is never read. -/
def harvestOne (isfile : String → Bool) (p : McProc) (s : McState) : McState :=
  exportMetadata (updateMc2Metadata isfile { s with log := s.log ++ [p.stdout] })

/-- The harvest loop of `run_mc2` over a sequence of spawned processes,
each paired with the filesystem state at its harvest time. -/
def harvestAll (steps : List ((String → Bool) × McProc)) (s : McState) : McState :=
  steps.foldl (fun st q => harvestOne q.1 q.2 st) s

/-- Externally visible actions of the motion-correction stage. -/
inductive McEvent
  | gpuDiscovery
  | launch (ts : Nat)
deriving DecidableEq, Repr

/-- Method `Motioncorr.__init__` (lines 35-76): restrict the input metadata to
`process_list`, discover GPUs with `nvidia-smi` (line 62, unconditional),
then reconcile with `_check_processed_images` (line 67).  Returns the
reconciliation result together with the emitted events. -/
def motioncorrInit (isfile : String → Bool) (mdIn : List Row)
    (record : Option (List Row)) (processList : List Nat) :
    ReconcileResult × List McEvent :=
  let meta := mdIn.filter (fun r => processList.contains r.ts)
  (checkProcessedImages isfile meta record processList, [McEvent.gpuDiscovery])

/-- Function `motioncorr.run` (lines 366-407): construct the `Motioncorr` object,
then call `run_mc2` (one external invocation per remaining row) only when
`no_processes` is false. -/
def motioncorrDriver (isfile : String → Bool) (mdIn : List Row)
    (record : Option (List Row)) (processList : List Nat) : List McEvent :=
  let (res, initEvents) := motioncorrInit isfile mdIn record processList
  initEvents ++ (if res.allDone then [] else res.meta.map (fun r => McEvent.launch r.ts))

/-- Holds (`true`) when no two rows of the table share an output path. -/
def uniqueOutputs : List Row → Bool
  | [] => true
  | r :: rest => !(rest.map Row.output).contains r.output && uniqueOutputs rest

end Motioncorr

/-- Disjointness of two tables by output path: no pending row shares its
output path with a done row. -/
def outputsDisjoint (meta metaOut : List Row) : Prop :=
  ∀ r ∈ meta, ∀ q ∈ metaOut, r.output ≠ q.output

instance (meta metaOut : List Row) : Decidable (outputsDisjoint meta metaOut) := by
  unfold outputsDisjoint
  infer_instance

/-- Insert a value into an ascending list, keeping it ascending. -/
def insertSorted (x : Nat) : List Nat → List Nat
  | [] => [x]
  | y :: ys => if x ≤ y then x :: y :: ys else y :: insertSorted x ys

/-- Ascending insertion sort, the model of pandas
`sort_values(ascending=True)` over a column of numbers. -/
def sortNat (l : List Nat) : List Nat :=
  l.foldr insertSorted []

/-- Remove adjacent duplicates; on a sorted list this is the model of
pandas `.unique()` (which keeps first occurrences). -/
def uniqueSorted : List Nat → List Nat
  | [] => []
  | [x] => [x]
  | x :: y :: rest =>
    if x = y then uniqueSorted (y :: rest) else x :: uniqueSorted (y :: rest)

/-- Composition `sort_values(ascending=True).unique().tolist()` applied to a list of
series ids, as done at `motioncorr.py` line 354 and `align.py` line 486. -/
def sortedUniqueTs (l : List Nat) : List Nat :=
  uniqueSorted (sortNat l)

/-- The specification's words for deriving a later stage's scope: the
series ids present in the previous stage's done table but absent from the
later stage's own done table (all of them when the later stage has no done
table), deduplicated and sorted ascending.  Stated for comparison with the
per-stage derivations below. -/
def specScopeFromDone (prevTs : List Nat) (ownTs : Option (List Nat)) : List Nat :=
  sortedUniqueTs (match ownTs with
    | some own => prevTs.filter (fun t => !own.contains t)
    | none => prevTs)

namespace Motioncorr

/-- One row of the master metadata as used by `motioncorr.update_yaml`
(line 334): the `ts` and `angles` columns.  Tilt angles are opaque values
compared only for equality; they are modelled as integers. -/
structure TsAngle where
  ts : Nat
  angles : Int
deriving DecidableEq, Repr

/-- Function `motioncorr.update_yaml` (lines 336-354): the new `process_list`.  The
master metadata is outer-merged with the previous MC2 output metadata on
the `ts` and `angles` columns; the `left_only` rows are the (ts, angles)
pairs not yet motion-corrected, and their `ts` values are sorted and
deduplicated.  When no MC2 record exists every master row is unprocessed. -/
def deriveMc2ProcessList (masterMd : List TsAngle)
    (mc2Md : Option (List TsAngle)) : List Nat :=
  let unprocessed := match mc2Md with
    | some m => masterMd.filter (fun p => !m.contains p)
    | none => masterMd
  sortedUniqueTs (unprocessed.map TsAngle.ts)

end Motioncorr

namespace Align

/-- One row of the alignment metadata table built by
`Align._get_internal_metadata` (lines 73-96): the tilt-series id and the
two deterministic output paths. -/
structure ARow where
  ts : Nat
  stackOut : String
  alignOut : String
deriving DecidableEq, Repr

/-- Keep-first deduplication of full rows, the model of pandas
`drop_duplicates` (`align.py` lines 112 and 413); `seen` accumulates the
rows already emitted. -/
def dropDupsAux (seen : List ARow) : List ARow → List ARow
  | [] => []
  | r :: rest =>
    if seen.contains r then dropDupsAux seen rest
    else r :: dropDupsAux (r :: seen) rest

/-- pandas `drop_duplicates` on the alignment output metadata. -/
def dropDuplicates (l : List ARow) : List ARow :=
  dropDupsAux [] l

/-- Method `Align._check_aligned_images` lines 103-112: read the alignment output
record (empty when `<proj>_align_mdout.yaml` is absent), then
`drop_duplicates`. -/
def loadAlignRecord (record : Option (List ARow)) : List ARow :=
  dropDuplicates (record.getD [])

/-- The mutable state of an `Align` object during stack creation: the
pending table `self._align_images`, the done table `self.meta_out`, and
the serialised content of `<proj>_align_mdout.yaml`. -/
structure AlignState where
  alignImages : List ARow
  metaOut : List ARow
  persisted : List ARow
deriving DecidableEq, Repr

/-- Method `Align.update_align_metadata` with `ext=False` (lines 395-413): rows
whose aligned output file exists move from the pending table to the done
table, and the done table is deduplicated. -/
def updateAlignMetadata (isfile : String → Bool) (s : AlignState) : AlignState :=
  { alignImages := s.alignImages.filter (fun r => !isfile r.alignOut)
    metaOut := dropDuplicates
      (s.metaOut ++ s.alignImages.filter (fun r => isfile r.alignOut))
    persisted := s.persisted }

/-- Method `Align.export_metadata` (lines 415-423): serialise the done table. -/
def exportAlignMetadata (s : AlignState) : AlignState :=
  { s with persisted := s.metaOut }

/-- The observable boundary data of one `subprocess.run` call: exit code,
captured `stdout`, and the `stderr` attribute of the returned
`CompletedProcess` (which is `None` when the call redirected stderr). -/
structure RunResult where
  exitCode : Nat
  stdout : String
  stderrText : Option String
deriving DecidableEq, Repr

/-- Call `subprocess.run(cmd, stdout=PIPE, stderr=STDOUT, check=True)` as used
at `align.py` lines 248-252 merges the error stream into `stdout` and
leaves the `stderr` attribute of the result set to `None`. -/
def mergedStderrResult (exitCode : Nat) (combinedOut : String) : RunResult :=
  ⟨exitCode, combinedOut, none⟩

/-- The exceptions that can escape the loop of `Align.create_stack`:
`CalledProcessError` raised by `subprocess.run(check=True)` on a non-zero
exit, and the `ValueError` raised by the `if run_newstack.stderr:` test. -/
inductive StackError
  | calledProcessError (ts exitCode : Nat)
  | newstackStderr (ts : Nat)
deriving DecidableEq, Repr

/-- Truthiness of the `stderr` attribute in `if run_newstack.stderr:`
(line 254): `None` and the empty string are falsy. -/
def stderrTruthy (r : RunResult) : Bool :=
  (r.stderrText.getD "").length != 0

/-- The loop of `Align.create_stack` (lines 217-260) over the process
list.  `run t` is the newstack invocation for series `t`; `fs t` is the
filesystem state after it.  `check=True` raises on a non-zero exit before
the stderr test; either exception aborts the loop, leaving the state (in
particular the persisted record) as it was after the last success. -/
def createStack (run : Nat → RunResult) (fs : Nat → String → Bool) :
    List Nat → AlignState → AlignState × Option StackError
  | [], s => (s, none)
  | t :: rest, s =>
    let r := run t
    if r.exitCode != 0 then (s, some (StackError.calledProcessError t r.exitCode))
    else if stderrTruthy r then (s, some (StackError.newstackStderr t))
    else createStack run fs rest (exportAlignMetadata (updateAlignMetadata (fs t) s))

/-- Function `align.update_yaml` (lines 447-499): the new `process_list` is derived
from the `ts` column of the MC2 output metadata, outer-merged with the
`ts` column of the alignment output metadata when the latter exists; the
`left_only` values are sorted and deduplicated. -/
def deriveAlignProcessList (mc2Ts : List Nat) (alignTs : Option (List Nat)) : List Nat :=
  let unprocessed := match alignTs with
    | some ats => mc2Ts.filter (fun t => !ats.contains t)
    | none => mc2Ts
  sortedUniqueTs unprocessed

end Align

namespace Main

/-- Source `main.py` line 36: the characters rejected in a project name. -/
def illegalChars : List Char := ['<', '>', ':', '"', '/', '\\', '|', '?', '*']

/-- Function `main.get_proj_name` (lines 29-40), on the character list of the
input: scan the illegal characters in order and raise `ValueError` naming
the first one that occurs in the project name; otherwise return the name
unchanged. -/
def getProjName (projectName : List Char) : Except Char (List Char) :=
  match illegalChars.find? (fun c => projectName.contains c) with
  | some c => Except.error c
  | none => Except.ok projectName

end Main

end Ot2Rec

/-! ## Theorems -/

open Ot2Rec Ot2Rec.Motioncorr Ot2Rec.Align Ot2Rec.Main

theorem harvestOne_log (isfile : String → Bool) (p : McProc) (s : McState) :
    (harvestOne isfile p s).log = s.log ++ [p.stdout] := rfl

/-- Claim C10: `get_proj_name` returns the project name unchanged when it
contains none of the characters `< > : " / \ | ? *`, and raises a
`ValueError` naming an offending character when it contains at least one
of them. -/
theorem getProjName_ok_or_names_offender (name : List Char) :
    ((∀ c ∈ illegalChars, c ∉ name) → getProjName name = Except.ok name)
    ∧ ((∃ c ∈ illegalChars, c ∈ name) →
      ∃ c ∈ illegalChars, c ∈ name ∧ getProjName name = Except.error c) := by
  unfold getProjName
  rcases h : illegalChars.find? (fun c => name.contains c) with _ | c
  · rw [List.find?_eq_none] at h
    refine ⟨fun _ => rfl, ?_⟩
    rintro ⟨c, hc, hcm⟩
    exact absurd (by simpa using hcm) (h c hc)
  · have hmem : c ∈ illegalChars := List.mem_of_find?_eq_some h
    have hcontains : name.contains c = true := List.find?_some h
    have hcm : c ∈ name := by simpa using hcontains
    refine ⟨fun hnone => absurd hcm (hnone c hmem), fun _ => ⟨c, hmem, hcm, rfl⟩⟩

/-- Witness for C10 at a concrete input. -/
theorem getProjName_ok_or_names_offender_witness :
    getProjName ['t', 's'] = Except.ok ['t', 's'] :=
  (getProjName_ok_or_names_offender ['t', 's']).1 (by decide)

/-- Claim C8: after every successfully harvested item, exactly the pending
rows whose output file now exists are appended to the done table and
removed from the pending table, and the done table is persisted before the
next item of the chunk is harvested (after every mutation, never
batched). -/
theorem checkpoint_after_every_item :
    (∀ (isfile : String → Bool) (p : McProc) (s : McState),
      (harvestOne isfile p s).persisted = (harvestOne isfile p s).metaOut
      ∧ (harvestOne isfile p s).metaOut
          = s.metaOut ++ s.meta.filter (fun r => isfile r.output)
      ∧ (harvestOne isfile p s).meta = s.meta.filter (fun r => !isfile r.output))
    ∧ (∀ (steps : List ((String → Bool) × McProc)) (s : McState), steps ≠ [] →
      (harvestAll steps s).persisted = (harvestAll steps s).metaOut) := by
  refine ⟨fun isfile p s => ⟨rfl, rfl, rfl⟩, ?_⟩
  intro steps
  induction steps with
  | nil => intro s h; exact absurd rfl h
  | cons a rest ih =>
    intro s _
    show (harvestAll rest (harvestOne a.1 a.2 s)).persisted
        = (harvestAll rest (harvestOne a.1 a.2 s)).metaOut
    rcases rest with _ | ⟨b, rest'⟩
    · rfl
    · exact ih (harvestOne a.1 a.2 s) (by simp)

/-- Witness for C8 at a concrete input. -/
theorem checkpoint_after_every_item_witness :
    (harvestAll [((fun _ => true), ⟨0, "ok"⟩)] ⟨[⟨1, "a"⟩], [], [], []⟩).persisted
      = (harvestAll [((fun _ => true), ⟨0, "ok"⟩)] ⟨[⟨1, "a"⟩], [], [], []⟩).metaOut :=
  checkpoint_after_every_item.2 [((fun _ => true), ⟨0, "ok"⟩)] ⟨[⟨1, "a"⟩], [], [], []⟩
    (by simp)

/-- Claim C5 (counterexample): with free devices `[3, 7]` and two work
items, `run_mc2` does not assign devices round-robin: line 65 assigns
`use_gpu[0]` to every row, so both items receive device 3, while the
claimed policy would give the second item device 7. -/
theorem gpu_assignment_not_round_robin :
    assignGpu [⟨1, "a"⟩, ⟨2, "b"⟩] [3, 7] = [(⟨1, "a"⟩, 3), (⟨2, "b"⟩, 3)]
    ∧ specRoundRobinAssign [⟨1, "a"⟩, ⟨2, "b"⟩] [3, 7]
      = [(⟨1, "a"⟩, 3), (⟨2, "b"⟩, 7)] := by
  exact ⟨rfl, rfl⟩

/-- Claim C5 (amended): every work item is assigned the first device of
the free list, computed once at initialisation; devices other than the
first are never assigned, and the items themselves are unchanged. -/
theorem gpu_assignment_constant_first_device (meta : List Row) (g : Nat)
    (gs : List Nat) :
    (assignGpu meta (g :: gs)).map Prod.fst = meta
    ∧ ∀ p ∈ assignGpu meta (g :: gs), p.2 = g := by
  constructor
  · simp only [assignGpu, List.map_map]
    exact List.map_id _
  · intro p hp
    simp only [assignGpu, List.mem_map] at hp
    obtain ⟨r, _, rfl⟩ := hp
    rfl

/-- Witness for the amended C5 at a concrete input. -/
theorem gpu_assignment_constant_first_device_witness :
    ∀ p ∈ assignGpu [⟨1, "a"⟩] (4 :: [9]), p.2 = 4 :=
  (gpu_assignment_constant_first_device [⟨1, "a"⟩] 4 [9]).2

/-- Claim C1 (counterexample): in `run_mc2` a non-zero exit status is not
fatal.  The first harvested process exits with status 1, yet the second
process is still harvested (its output `"ok"` is appended to the log) and
its item is checkpointed into the done table and persisted: the dispatcher
never inspects the exit status and does not abort. -/
theorem runMc2_continues_past_nonzero_exit :
    harvestAll
        [((fun _ => false), ⟨1, "boom"⟩), ((fun _ => true), ⟨0, "ok"⟩)]
        ⟨[⟨1, "mc_001.mrc"⟩], [], [], []⟩
      = ⟨[], [⟨1, "mc_001.mrc"⟩], [⟨1, "mc_001.mrc"⟩], ["boom", "ok"]⟩ := by
  rfl

/-- Claim C1 (amended): `Motioncorr.run_mc2` performs no failure check at
all — every spawned process is harvested and checkpointed regardless of
exit status and captured output, and dispatch continues.
`Align.create_stack` does abort on a non-zero exit status: `check=True`
raises `CalledProcessError` before any later series is started, leaving
the state (including the persisted record) as of the last success; its
additional non-empty-error-stream check can never fire, because stderr is
merged into stdout and the captured `stderr` attribute is always `None`. -/
theorem dispatch_failure_handling :
    (∀ (steps : List ((String → Bool) × McProc)) (s : McState),
      (harvestAll steps s).log = s.log ++ steps.map (fun q => q.2.stdout))
    ∧ (∀ (run : Nat → RunResult) (fs : Nat → String → Bool) (t : Nat)
        (rest : List Nat) (s : AlignState), (run t).exitCode ≠ 0 →
      createStack run fs (t :: rest) s
        = (s, some (StackError.calledProcessError t (run t).exitCode)))
    ∧ (∀ (f : Nat → Nat × String) (fs : Nat → String → Bool) (l : List Nat)
        (s : AlignState) (t : Nat),
      (createStack (fun u => mergedStderrResult (f u).1 (f u).2) fs l s).2
        ≠ some (StackError.newstackStderr t)) := by
  refine ⟨?_, ?_, ?_⟩
  · intro steps
    induction steps with
    | nil => intro s; simp [harvestAll]
    | cons a rest ih =>
      intro s
      show (harvestAll rest (harvestOne a.1 a.2 s)).log = _
      rw [ih, harvestOne_log]
      simp
  · intro run fs t rest s h
    have hb : ((run t).exitCode != 0) = true := by simpa using h
    simp [createStack, hb]
  · intro f fs l
    induction l with
    | nil => intro s t h; simp [createStack] at h
    | cons u rest ih =>
      intro s t
      by_cases hu : (f u).1 = 0
      · have hfalse : ((mergedStderrResult (f u).1 (f u).2).exitCode != 0) = false := by
          simp [mergedStderrResult, hu]
        simpa [createStack, hfalse, stderrTruthy, mergedStderrResult, hu] using
          ih (exportAlignMetadata (updateAlignMetadata (fs u) s)) t
      · have htrue : ((mergedStderrResult (f u).1 (f u).2).exitCode != 0) = true := by
          simp [mergedStderrResult, hu]
        simp [createStack, htrue]

/-- Witness for the amended C1 at a concrete input: a newstack invocation
for series 5 exiting with status 1 aborts `create_stack` immediately. -/
theorem dispatch_failure_handling_witness :
    createStack (fun _ => ⟨1, "", none⟩) (fun _ _ => false) [5] ⟨[], [], []⟩
      = (⟨[], [], []⟩, some (StackError.calledProcessError 5 1)) :=
  dispatch_failure_handling.2.1 (fun _ => ⟨1, "", none⟩) (fun _ _ => false) 5 []
    ⟨[], [], []⟩ (by decide)

theorem contains_output_iff (metaOut : List Row) (x : String) :
    (metaOut.map Row.output).contains x = true ↔ ∃ q ∈ metaOut, q.output = x := by
  rw [List.elem_iff]
  simp [List.mem_map]

theorem mem_dropProcessed {meta metaOut : List Row} {r : Row} :
    r ∈ dropProcessed meta metaOut
      ↔ r ∈ meta ∧ ∀ q ∈ metaOut, r.output ≠ q.output := by
  simp only [dropProcessed, List.mem_filter, Bool.not_eq_true', and_congr_right_iff]
  intro _
  rw [← Bool.not_eq_true, contains_output_iff]
  constructor
  · intro h q hq heq
    exact h ⟨q, hq, heq.symm⟩
  · rintro h ⟨q, hq, heq⟩
    exact h q hq heq.symm

/-- Claim C3: the pending table and the done table never share an output
path — reconciliation establishes the disjointness, and every per-item
checkpoint (`update_mc2_metadata`) preserves it. -/
theorem pending_done_disjoint :
    (∀ (isfile : String → Bool) (meta : List Row) (record : Option (List Row))
        (pl : List Nat),
      outputsDisjoint (checkProcessedImages isfile meta record pl).meta
        (checkProcessedImages isfile meta record pl).metaOut)
    ∧ (∀ (isfile : String → Bool) (s : McState),
      outputsDisjoint s.meta s.metaOut →
      outputsDisjoint (updateMc2Metadata isfile s).meta
        (updateMc2Metadata isfile s).metaOut) := by
  constructor
  · intro isfile meta record pl r hr q hq
    have := mem_dropProcessed.mp hr
    exact this.2 q hq
  · intro isfile s hdisj r hr q hq
    simp only [updateMc2Metadata, List.mem_filter, Bool.not_eq_true'] at hr
    rcases List.mem_append.mp hq with hq | hq
    · exact hdisj r hr.1 q hq
    · have hqf := List.mem_filter.mp hq
      intro heq
      rw [heq, hqf.2] at hr
      exact absurd hr.2 (by simp)

/-- Witness for C3 at a concrete input. -/
theorem pending_done_disjoint_witness :
    outputsDisjoint
      (updateMc2Metadata (fun _ => true) ⟨[⟨1, "a"⟩], [⟨2, "b"⟩], [], []⟩).meta
      (updateMc2Metadata (fun _ => true) ⟨[⟨1, "a"⟩], [⟨2, "b"⟩], [], []⟩).metaOut :=
  pending_done_disjoint.2 (fun _ => true) ⟨[⟨1, "a"⟩], [⟨2, "b"⟩], [], []⟩
    (by decide)

theorem noProcesses_iff (meta metaOut : List Row) :
    noProcesses meta metaOut = true ↔ dropProcessed meta metaOut = [] := by
  unfold noProcesses ignoredRows dropProcessed
  rw [beq_iff_eq]
  constructor
  · intro h
    have heq := (List.filter_sublist meta).eq_of_length h
    rw [List.filter_eq_nil_iff]
    intro a ha
    have := (List.filter_eq_self.mp heq) a ha
    simp only [Bool.not_eq_true']
    simp
    exact (contains_output_iff _ _).mp this
  · intro h
    rw [List.filter_eq_nil_iff] at h
    have : List.filter (fun r => (metaOut.map Row.output).contains r.output) meta
        = meta := by
      rw [List.filter_eq_self]
      intro a ha
      have := h a ha
      simpa using this
    rw [this]

theorem motioncorrDriver_eq (isfile : String → Bool) (mdIn : List Row)
    (record : Option (List Row)) (pl : List Nat) :
    motioncorrDriver isfile mdIn record pl
      = [McEvent.gpuDiscovery]
        ++ (if (motioncorrInit isfile mdIn record pl).1.allDone then []
            else (motioncorrInit isfile mdIn record pl).1.meta.map
              (fun r => McEvent.launch r.ts)) := rfl

/-- Claim C4 (counterexample): with an empty declared scope, no candidate
metadata and no persisted record (so the done table is empty), the code
still signals `no_processes` — the flag is not distinct from "nothing
declared" — and GPU discovery (`nvidia-smi`, `__init__` line 62) is
performed unconditionally before the check, so `AllDone` does not skip
resource discovery. -/
theorem allDone_conflates_nothing_declared :
    (motioncorrInit (fun _ => true) [] none []).1.allDone = true
    ∧ loadRecord (none : Option (List Row)) = []
    ∧ McEvent.gpuDiscovery ∈ motioncorrDriver (fun _ => true) [] none [] := by
  refine ⟨rfl, rfl, ?_⟩
  simp [motioncorrDriver, motioncorrInit]

/-- Claim C4 (amended): `no_processes` is signalled exactly when the
candidate set restricted to scope, minus the rows already in the done
table, is empty — including when scope, candidates and done table are all
empty, so the flag is not distinct from "nothing declared".  When the flag
holds no external invocation is launched, but GPU discovery has already
run unconditionally in the constructor, before the check. -/
theorem allDone_pending_empty (isfile : String → Bool) (mdIn : List Row)
    (record : Option (List Row)) (pl : List Nat) :
    ((motioncorrInit isfile mdIn record pl).1.allDone = true
      ↔ (motioncorrInit isfile mdIn record pl).1.meta = [])
    ∧ ((motioncorrInit isfile mdIn record pl).1.allDone = true →
      ∀ t, McEvent.launch t ∉ motioncorrDriver isfile mdIn record pl)
    ∧ McEvent.gpuDiscovery ∈ motioncorrDriver isfile mdIn record pl := by
  refine ⟨noProcesses_iff _ _, ?_, ?_⟩
  · intro h t
    rw [motioncorrDriver_eq, h]
    simp
  · rw [motioncorrDriver_eq]
    exact List.mem_append_left _ (by simp)

/-- Witness for the amended C4 at a concrete input: every specified image
is already recorded as done with its file on disk, so nothing is
launched. -/
theorem allDone_pending_empty_witness :
    McEvent.launch 1 ∉
      motioncorrDriver (fun _ => true) [⟨1, "a"⟩] (some [⟨1, "a"⟩]) [1] :=
  (allDone_pending_empty (fun _ => true) [⟨1, "a"⟩] (some [⟨1, "a"⟩]) [1]).2.1
    (by decide) 1

theorem mem_missingSpecified {isfile : String → Bool} {metaOut : List Row}
    {pl : List Nat} {r : Row} :
    r ∈ missingSpecified isfile metaOut pl
      ↔ r ∈ metaOut ∧ isfile r.output = false ∧ r.ts ∈ pl := by
  simp only [missingSpecified, missingRows, List.mem_flatten, List.mem_map]
  constructor
  · rintro ⟨l, ⟨t, ht, rfl⟩, hr⟩
    have hf := List.mem_filter.mp hr
    have hm := List.mem_filter.mp hf.1
    refine ⟨hm.1, by simpa using hm.2, ?_⟩
    have : r.ts = t := by simpa using hf.2
    exact this ▸ ht
  · rintro ⟨hmem, hmiss, hts⟩
    refine ⟨_, ⟨r.ts, hts, rfl⟩, ?_⟩
    refine List.mem_filter.mpr ⟨List.mem_filter.mpr ⟨hmem, by simp [hmiss]⟩, by simp⟩

theorem contains_false_iff {α : Type _} [BEq α] [LawfulBEq α] (l : List α)
    (a : α) : l.contains a = false ↔ a ∉ l := by
  rw [← Bool.not_eq_true]
  exact not_congr List.elem_iff

/-- Summing, over the distinct scope values, the missing rows with that
series id counts each missing in-scope row exactly once. -/
theorem length_filter_disjoint_or (m : List Row) (a b : Row → Bool)
    (hdis : ∀ r, a r = true → b r = false) :
    (m.filter (fun r => a r || b r)).length
      = (m.filter a).length + (m.filter b).length := by
  induction m with
  | nil => simp
  | cons x rest ih =>
    rcases ha : a x with _ | _ <;> rcases hb : b x with _ | _
    · simp [List.filter_cons, ha, hb, ih]
    · simp [List.filter_cons, ha, hb, ih]
      omega
    · simp [List.filter_cons, ha, hb, ih]
      omega
    · exact absurd (hdis x ha) (by simp [hb])

theorem missingSpecified_length (isfile : String → Bool) (metaOut : List Row) :
    ∀ (pl : List Nat), pl.Nodup →
    (missingSpecified isfile metaOut pl).length
      = (metaOut.filter (fun r => !isfile r.output && pl.contains r.ts)).length := by
  intro pl
  induction pl with
  | nil =>
    intro _
    simp [missingSpecified]
  | cons t rest ih =>
    intro hnd
    have hrest := ih (List.Nodup.of_cons hnd)
    have ht : t ∉ rest := by
      have := List.nodup_cons.mp hnd
      exact this.1
    simp only [missingSpecified, List.map_cons, List.flatten_cons,
      List.length_append] at hrest ⊢
    rw [hrest]
    have hsplit := length_filter_disjoint_or metaOut
      (fun r => !isfile r.output && r.ts == t)
      (fun r => !isfile r.output && rest.contains r.ts) ?_
    · have hleft : (metaOut.filter (fun r => !isfile r.output && (t :: rest).contains r.ts)).length
          = (metaOut.filter (fun r =>
              (!isfile r.output && r.ts == t) || (!isfile r.output && rest.contains r.ts))).length := by
        congr 1
        apply List.filter_congr
        intro r _
        rw [List.contains_cons, Bool.and_or_distrib_left]
      rw [hleft, hsplit]
      congr 1
      simp only [missingRows]
      rw [List.filter_filter]
      congr 1
      apply List.filter_congr
      intro a _
      exact Bool.and_comm _ _
    · intro r h
      have hts : r.ts = t :=
        beq_iff_eq.mp ((Bool.and_eq_true _ _).mp h).2
      have hcon : rest.contains r.ts = false := by
        apply (contains_false_iff _ _).mpr
        rw [hts]
        exact ht
      show (!isfile r.output && rest.contains r.ts) = false
      rw [hcon, Bool.and_false]

/-- Claim C2: reconciliation removes from the done table exactly the rows
whose output file is missing from disk and whose series id is in scope
(rows missing on disk but out of scope are kept, in order), and the
reported reinstatement count equals the number of rows so removed. -/
theorem reinstatement_exact (isfile : String → Bool) (metaOut : List Row)
    (pl : List Nat) (hnd : pl.Nodup) :
    reinstateDone isfile metaOut pl
      = metaOut.filter (fun r => isfile r.output || !pl.contains r.ts)
    ∧ (missingSpecified isfile metaOut pl).length
      = (metaOut.filter (fun r => !isfile r.output && pl.contains r.ts)).length := by
  refine ⟨?_, missingSpecified_length isfile metaOut pl hnd⟩
  unfold reinstateDone
  apply List.filter_congr
  intro r hr
  by_cases hm : r ∈ missingSpecified isfile metaOut pl
  · have h1 : (missingSpecified isfile metaOut pl).contains r = true :=
      List.elem_iff.mpr hm
    obtain ⟨-, hmiss, hts⟩ := mem_missingSpecified.mp hm
    have h2 : pl.contains r.ts = true := List.elem_iff.mpr hts
    simp only [h1, hmiss, h2]
    rfl
  · have h1 : (missingSpecified isfile metaOut pl).contains r = false :=
      (contains_false_iff _ _).mpr hm
    rcases hf : isfile r.output with _ | _
    · have hts : r.ts ∉ pl := fun hts =>
        hm (mem_missingSpecified.mpr ⟨hr, hf, hts⟩)
      have h2 : pl.contains r.ts = false := (contains_false_iff _ _).mpr hts
      simp only [h1, hf, h2]
      rfl
    · simp only [h1, hf]
      rfl

/-- Witness for C2 at a concrete input: one recorded image whose file is
missing and whose series is in scope is removed, the out-of-scope one is
kept. -/
theorem reinstatement_exact_witness :
    reinstateDone (fun _ => false) [⟨1, "a"⟩, ⟨2, "b"⟩] [1] = [⟨2, "b"⟩] := by
  rw [(reinstatement_exact (fun _ => false) [⟨1, "a"⟩, ⟨2, "b"⟩] [1] (by simp)).1]
  rfl

theorem dropDupsAux_spec (l : List ARow) :
    ∀ seen : List ARow,
      (dropDupsAux seen l).Nodup ∧ ∀ r ∈ dropDupsAux seen l, r ∉ seen := by
  induction l with
  | nil => intro seen; exact ⟨List.nodup_nil, by simp [dropDupsAux]⟩
  | cons x rest ih =>
    intro seen
    unfold dropDupsAux
    rcases hx : seen.contains x with _ | _
    · simp only [Bool.false_eq_true, if_false]
      refine ⟨(List.nodup_cons).mpr ⟨?_, ((ih (x :: seen)).1)⟩, ?_⟩
      · intro hmem
        exact absurd (List.mem_cons_self x seen) ((ih (x :: seen)).2 x hmem)
      · intro r hr
        rcases List.mem_cons.mp hr with rfl | hr
        · exact (contains_false_iff _ _).mp hx
        · intro hrs
          exact (ih (x :: seen)).2 r hr (List.mem_cons_of_mem x hrs)
    · simp only [if_true]
      exact ⟨(ih seen).1, (ih seen).2⟩

theorem dropDuplicates_nodup (l : List ARow) : (dropDuplicates l).Nodup :=
  (dropDupsAux_spec l []).1

theorem uniqueOutputs_iff (l : List Row) :
    uniqueOutputs l = true ↔ l.Pairwise (fun a b => a.output ≠ b.output) := by
  induction l with
  | nil => simp [uniqueOutputs]
  | cons r rest ih =>
    simp only [uniqueOutputs, Bool.and_eq_true, List.pairwise_cons, ih]
    constructor
    · rintro ⟨hc, hp⟩
      refine ⟨?_, hp⟩
      intro q hq heq
      have htrue : (rest.map Row.output).contains r.output = true :=
        (contains_output_iff _ _).mpr ⟨q, hq, heq.symm⟩
      rw [htrue] at hc
      simp at hc
    · rintro ⟨hq, hp⟩
      refine ⟨?_, hp⟩
      have hfalse : (rest.map Row.output).contains r.output = false := by
        rcases h : (rest.map Row.output).contains r.output with _ | _
        · rfl
        · obtain ⟨q, hmem, heq⟩ := (contains_output_iff _ _).mp h
          exact absurd heq.symm (hq q hmem)
      rw [hfalse]
      rfl

/-- Claim C6 (counterexample): the motion-correction done table is not
deduplicated on load.  A persisted record holding the same row twice (its
file present, so reinstatement removes nothing) is loaded verbatim by
`_check_processed_images`, leaving two rows that share an output path. -/
theorem mc2_record_not_deduplicated :
    (checkProcessedImages (fun _ => true) []
        (some [⟨1, "mc_001.mrc"⟩, ⟨1, "mc_001.mrc"⟩]) [1]).metaOut
      = [⟨1, "mc_001.mrc"⟩, ⟨1, "mc_001.mrc"⟩]
    ∧ uniqueOutputs [⟨1, "mc_001.mrc"⟩, ⟨1, "mc_001.mrc"⟩] = false := by
  exact ⟨rfl, rfl⟩

/-- Claim C6 (amended): only the alignment stage deduplicates its done
table — `drop_duplicates` on load and after every append.  The
motion-correction stage never deduplicates; its per-item appends preserve
output-path uniqueness whenever the pending and done tables are unique and
disjoint by output path, but a duplicated loaded record is kept verbatim. -/
theorem done_table_dedup_behaviour :
    (∀ record : Option (List ARow), (loadAlignRecord record).Nodup)
    ∧ (∀ (isfile : String → Bool) (s : AlignState),
      (updateAlignMetadata isfile s).metaOut.Nodup)
    ∧ (∀ (isfile : String → Bool) (s : McState),
      uniqueOutputs s.meta = true → uniqueOutputs s.metaOut = true →
      outputsDisjoint s.meta s.metaOut →
      uniqueOutputs (updateMc2Metadata isfile s).metaOut = true) := by
  refine ⟨fun record => dropDuplicates_nodup _,
    fun isfile s => dropDuplicates_nodup _, ?_⟩
  intro isfile s hmeta hout hdisj
  rw [uniqueOutputs_iff] at hmeta hout ⊢
  show (s.metaOut ++ s.meta.filter (fun r => isfile r.output)).Pairwise _
  rw [List.pairwise_append]
  refine ⟨hout, hmeta.sublist (List.filter_sublist _), ?_⟩
  intro a ha b hb
  have hbm := (List.mem_filter.mp hb).1
  exact fun heq => hdisj b hbm a ha (heq.symm)

/-- Witness for the amended C6 at a concrete input. -/
theorem done_table_dedup_behaviour_witness :
    uniqueOutputs
      (updateMc2Metadata (fun _ => true)
        ⟨[⟨1, "a"⟩], [⟨2, "b"⟩], [], []⟩).metaOut = true :=
  done_table_dedup_behaviour.2.2 (fun _ => true)
    ⟨[⟨1, "a"⟩], [⟨2, "b"⟩], [], []⟩ (by decide) (by decide) (by decide)

theorem yieldChunks_nil (c : Nat) : yieldChunks ([] : List α) c = [] := by
  rw [yieldChunks]

theorem yieldChunks_cons (x : α) (xs : List α) (c : Nat) :
    yieldChunks (x :: xs) c = (x :: xs.take (c - 1)) :: yieldChunks (xs.drop (c - 1)) c := by
  rw [yieldChunks]

theorem dropLast_cons_ne (a : α) {l : List α} (h : l ≠ []) :
    (a :: l).dropLast = a :: l.dropLast := by
  cases l with
  | nil => exact absurd rfl h
  | cons b m => rfl

theorem getLast?_cons_ne (a : α) {l : List α} (h : l ≠ []) :
    (a :: l).getLast? = l.getLast? := by
  cases l with
  | nil => exact absurd rfl h
  | cons b m => simp [List.getLast?_cons]

theorem yieldChunks_ne_nil (x : α) (xs : List α) (c : Nat) :
    yieldChunks (x :: xs) c ≠ [] := by
  rw [yieldChunks_cons]
  exact List.cons_ne_nil _ _

theorem yieldChunks_flatten (c : Nat) :
    ∀ (n : Nat) (l : List α), l.length ≤ n → (yieldChunks l c).flatten = l := by
  intro n
  induction n with
  | zero =>
    intro l h
    have : l = [] := List.eq_nil_of_length_eq_zero (Nat.le_zero.mp h)
    subst this
    rw [yieldChunks_nil]
    rfl
  | succ n ih =>
    intro l h
    rcases l with _ | ⟨x, xs⟩
    · rw [yieldChunks_nil]
      rfl
    · rw [yieldChunks_cons]
      simp only [List.flatten_cons]
      rw [ih (xs.drop (c - 1)) (by simp only [List.length_drop]; simp at h; omega)]
      rw [List.cons_append, List.take_append_drop]

theorem yieldChunks_length (c : Nat) (hc : 0 < c) :
    ∀ (n : Nat) (l : List α), l.length ≤ n →
      (yieldChunks l c).length = (l.length + c - 1) / c := by
  intro n
  induction n with
  | zero =>
    intro l h
    have : l = [] := List.eq_nil_of_length_eq_zero (Nat.le_zero.mp h)
    subst this
    rw [yieldChunks_nil]
    simp only [List.length_nil, Nat.zero_add]
    rw [Nat.div_eq_of_lt (by omega)]
  | succ n ih =>
    intro l h
    rcases l with _ | ⟨x, xs⟩
    · rw [yieldChunks_nil]
      simp only [List.length_nil, Nat.zero_add]
      rw [Nat.div_eq_of_lt (by omega)]
    · rw [yieldChunks_cons]
      simp only [List.length_cons]
      rw [ih (xs.drop (c - 1)) (by simp only [List.length_drop]; simp at h; omega)]
      simp only [List.length_drop]
      have hnum : xs.length + 1 + c - 1 = xs.length + c := by omega
      rw [hnum, Nat.add_div_right _ hc]
      rcases le_or_lt xs.length (c - 1) with hle | hlt
      · have h0 : xs.length - (c - 1) = 0 := by omega
        rw [h0]
        have h1 : 0 + c - 1 = c - 1 := by omega
        rw [h1, Nat.div_eq_of_lt (by omega), Nat.div_eq_of_lt (by omega)]
      · have h1 : xs.length - (c - 1) + c - 1 = xs.length := by omega
        rw [h1]

theorem yieldChunks_dropLast_length (c : Nat) (hc : 0 < c) :
    ∀ (n : Nat) (l : List α), l.length ≤ n →
      ∀ ch ∈ (yieldChunks l c).dropLast, ch.length = c := by
  intro n
  induction n with
  | zero =>
    intro l h
    have : l = [] := List.eq_nil_of_length_eq_zero (Nat.le_zero.mp h)
    subst this
    rw [yieldChunks_nil]
    simp
  | succ n ih =>
    intro l h
    rcases l with _ | ⟨x, xs⟩
    · rw [yieldChunks_nil]
      simp
    · rw [yieldChunks_cons]
      rcases hdrop : xs.drop (c - 1) with _ | ⟨y, ys⟩
      · rw [yieldChunks_nil]
        simp
      · rw [dropLast_cons_ne _ (yieldChunks_ne_nil y ys c)]
        intro ch hch
        rcases List.mem_cons.mp hch with rfl | hch
        · have hlen : c - 1 ≤ xs.length := by
            by_contra hgt
            rw [List.drop_eq_nil_of_le (by omega)] at hdrop
            cases hdrop
          simp only [List.length_cons, List.length_take]
          omega
        · rw [← hdrop] at hch
          exact ih (xs.drop (c - 1))
            (by simp only [List.length_drop]; simp at h; omega) ch hch

theorem yieldChunks_getLast_length (c : Nat) (hc : 0 < c) :
    ∀ (n : Nat) (l : List α), l.length ≤ n →
      ∀ ch, (yieldChunks l c).getLast? = some ch →
        ch.length = if l.length % c = 0 then c else l.length % c := by
  intro n
  induction n with
  | zero =>
    intro l h ch hch
    have : l = [] := List.eq_nil_of_length_eq_zero (Nat.le_zero.mp h)
    subst this
    rw [yieldChunks_nil] at hch
    cases hch
  | succ n ih =>
    intro l h ch hch
    rcases l with _ | ⟨x, xs⟩
    · rw [yieldChunks_nil] at hch
      cases hch
    · rw [yieldChunks_cons] at hch
      rcases hdrop : xs.drop (c - 1) with _ | ⟨y, ys⟩
      · rw [hdrop, yieldChunks_nil] at hch
        have hch' : x :: xs.take (c - 1) = ch := by
          have : ([x :: xs.take (c - 1)] : List (List α)).getLast? = some (x :: xs.take (c - 1)) := rfl
          rw [this] at hch
          exact Option.some.inj hch
        subst hch'
        have hle : xs.length ≤ c - 1 := by
          by_contra hgt
          have hne : xs.drop (c - 1) ≠ [] := by
            intro hnil
            rw [List.drop_eq_nil_iff] at hnil
            omega
          exact hne hdrop
        simp only [List.length_cons, List.length_take]
        have hlen : min (c - 1) xs.length = xs.length := by omega
        rw [hlen]
        rcases Nat.lt_or_ge (xs.length + 1) c with hlt | hge
        · rw [if_neg (by rw [Nat.mod_eq_of_lt hlt]; omega), Nat.mod_eq_of_lt hlt]
        · have heq : xs.length + 1 = c := by omega
          rw [heq, if_pos (Nat.mod_self c)]
      · have hne : yieldChunks (xs.drop (c - 1)) c ≠ [] := by
          rw [hdrop]
          exact yieldChunks_ne_nil y ys c
        rw [getLast?_cons_ne _ hne] at hch
        have hchlen := ih (xs.drop (c - 1))
          (by simp only [List.length_drop]; simp at h; omega) ch hch
        have hge : c - 1 ≤ xs.length := by
          by_contra hgt
          rw [List.drop_eq_nil_of_le (by omega)] at hdrop
          cases hdrop
        simp only [List.length_drop] at hchlen
        have hsub : xs.length - (c - 1) = xs.length + 1 - c := by omega
        rw [hsub] at hchlen
        have hmod : (xs.length + 1 - c) % c = (xs.length + 1) % c :=
          (Nat.mod_eq_sub_mod (by omega)).symm
        rw [hmod] at hchlen
        simpa using hchlen

/-- Claim C7: with concurrency bound `C = |free GPUs| * jobs_per_gpu > 0`,
`_yield_chunks` partitions the job sequence into exactly `ceil(N/C)`
consecutive chunks, every chunk but the last of size `C`, and the last of
size `N mod C` unless `C` divides `N`, in which case it has size `C`. -/
theorem chunk_partition (items : List McProc) (useGpu : List Nat)
    (jobsPerGpu : Nat) (hc : 0 < concurrencyBound useGpu jobsPerGpu) :
    (yieldChunks items (concurrencyBound useGpu jobsPerGpu)).flatten = items
    ∧ (yieldChunks items (concurrencyBound useGpu jobsPerGpu)).length
        = (items.length + concurrencyBound useGpu jobsPerGpu - 1)
            / concurrencyBound useGpu jobsPerGpu
    ∧ (∀ ch ∈ (yieldChunks items (concurrencyBound useGpu jobsPerGpu)).dropLast,
        ch.length = concurrencyBound useGpu jobsPerGpu)
    ∧ (∀ ch, (yieldChunks items (concurrencyBound useGpu jobsPerGpu)).getLast? = some ch →
        ch.length =
          if items.length % concurrencyBound useGpu jobsPerGpu = 0
          then concurrencyBound useGpu jobsPerGpu
          else items.length % concurrencyBound useGpu jobsPerGpu) := by
  exact ⟨yieldChunks_flatten _ items.length items le_rfl,
    yieldChunks_length _ hc items.length items le_rfl,
    yieldChunks_dropLast_length _ hc items.length items le_rfl,
    yieldChunks_getLast_length _ hc items.length items le_rfl⟩

/-- Witness for C7 at a concrete input: five jobs, one free GPU, two jobs
per GPU, hence chunks `[j1, j2], [j3, j4], [j5]`. -/
theorem chunk_partition_witness :
    (yieldChunks
        ([⟨0, "a"⟩, ⟨0, "b"⟩, ⟨0, "c"⟩, ⟨0, "d"⟩, ⟨0, "e"⟩] : List McProc)
        (concurrencyBound [0] 2)).length
      = (([⟨0, "a"⟩, ⟨0, "b"⟩, ⟨0, "c"⟩, ⟨0, "d"⟩, ⟨0, "e"⟩] : List McProc).length
          + concurrencyBound [0] 2 - 1) / concurrencyBound [0] 2 :=
  (chunk_partition ([⟨0, "a"⟩, ⟨0, "b"⟩, ⟨0, "c"⟩, ⟨0, "d"⟩, ⟨0, "e"⟩] : List McProc)
    [0] 2 (by decide)).2.1

theorem mem_insertSorted (x a : Nat) :
    ∀ l : List Nat, a ∈ insertSorted x l ↔ a = x ∨ a ∈ l := by
  intro l
  induction l with
  | nil => simp [insertSorted]
  | cons y ys ih =>
    unfold insertSorted
    by_cases hxy : x ≤ y
    · simp [hxy]
    · simp only [if_neg hxy, List.mem_cons, ih]
      tauto

theorem mem_sortNat (a : Nat) : ∀ l : List Nat, a ∈ sortNat l ↔ a ∈ l := by
  intro l
  induction l with
  | nil => simp [sortNat]
  | cons y ys ih =>
    show a ∈ insertSorted y (sortNat ys) ↔ _
    rw [mem_insertSorted, ih]
    simp

theorem mem_uniqueSorted (a : Nat) : ∀ l : List Nat, a ∈ uniqueSorted l ↔ a ∈ l := by
  intro l
  induction l with
  | nil => simp [uniqueSorted]
  | cons x tl ih =>
    cases tl with
    | nil => simp [uniqueSorted]
    | cons y rest =>
      unfold uniqueSorted
      by_cases hxy : x = y
      · subst hxy
        rw [if_pos rfl, ih]
        simp only [List.mem_cons]
        tauto
      · rw [if_neg hxy]
        simp only [List.mem_cons, ih]

theorem insertSorted_sorted (x : Nat) :
    ∀ l : List Nat, l.Pairwise (· ≤ ·) → (insertSorted x l).Pairwise (· ≤ ·) := by
  intro l
  induction l with
  | nil => intro _; simp [insertSorted]
  | cons y ys ih =>
    intro h
    have hy := List.pairwise_cons.mp h
    unfold insertSorted
    by_cases hxy : x ≤ y
    · rw [if_pos hxy]
      refine List.pairwise_cons.mpr ⟨?_, h⟩
      intro b hb
      rcases List.mem_cons.mp hb with rfl | hb
      · exact hxy
      · exact le_trans hxy (hy.1 b hb)
    · rw [if_neg hxy]
      refine List.pairwise_cons.mpr ⟨?_, ih hy.2⟩
      intro b hb
      rcases (mem_insertSorted x b ys).mp hb with rfl | hb
      · exact le_of_not_le hxy
      · exact hy.1 b hb

theorem sortNat_sorted : ∀ l : List Nat, (sortNat l).Pairwise (· ≤ ·) := by
  intro l
  induction l with
  | nil => simp [sortNat]
  | cons y ys ih => exact insertSorted_sorted y (sortNat ys) ih

theorem uniqueSorted_strict :
    ∀ l : List Nat, l.Pairwise (· ≤ ·) → (uniqueSorted l).Pairwise (· < ·) := by
  intro l
  induction l with
  | nil => intro _; simp [uniqueSorted]
  | cons x tl ih =>
    intro h
    have hx := List.pairwise_cons.mp h
    cases tl with
    | nil => simp [uniqueSorted]
    | cons y rest =>
      unfold uniqueSorted
      by_cases hxy : x = y
      · rw [if_pos hxy]
        exact ih hx.2
      · rw [if_neg hxy]
        refine List.pairwise_cons.mpr ⟨?_, ih hx.2⟩
        intro b hb
        have hxyl : x < y := lt_of_le_of_ne (hx.1 y (List.mem_cons_self y rest)) hxy
        rcases List.mem_cons.mp ((mem_uniqueSorted b (y :: rest)).mp hb) with rfl | hb
        · exact hxyl
        · exact lt_of_lt_of_le hxyl ((List.pairwise_cons.mp hx.2).1 b hb)

theorem sortedUniqueTs_strict (l : List Nat) :
    (sortedUniqueTs l).Pairwise (· < ·) :=
  uniqueSorted_strict (sortNat l) (sortNat_sorted l)

theorem mem_sortedUniqueTs (a : Nat) (l : List Nat) :
    a ∈ sortedUniqueTs l ↔ a ∈ l := by
  unfold sortedUniqueTs
  rw [mem_uniqueSorted, mem_sortNat]

/-- Claim C9 (counterexample): the motion-correction stage does not derive
its scope at series-id granularity.  With master metadata holding two tilt
angles for series 1 and an MC2 record holding only the first, series 1 is
present in both tables' `ts` columns, so the claimed derivation yields the
empty scope, yet `motioncorr.update_yaml` (which diffs on the
`(ts, angles)` pairs) yields `[1]`. -/
theorem mc2_scope_not_series_granular :
    deriveMc2ProcessList [⟨1, 0⟩, ⟨1, 10⟩] (some [⟨1, 0⟩]) = [1]
    ∧ specScopeFromDone [1, 1] (some [1]) = [] := by
  exact ⟨rfl, rfl⟩

/-- Claim C9 (amended): the alignment stage's scope is derived exactly as
claimed — series ids in the motion-correction done table and not in the
alignment done table (all of them when no alignment record exists),
deduplicated and sorted ascending.  The motion-correction stage instead
diffs the master metadata against its done table on (series id, tilt
angle) pairs, so a series id present in both tables stays in scope when
some of its angles are unprocessed; its result is likewise deduplicated
and ascending. -/
theorem scope_derivation :
    (∀ (mc2Ts : List Nat) (alignTs : Option (List Nat)),
      deriveAlignProcessList mc2Ts alignTs = specScopeFromDone mc2Ts alignTs
      ∧ (deriveAlignProcessList mc2Ts alignTs).Pairwise (· < ·))
    ∧ (∀ (masterMd mc2Md : List TsAngle) (t : Nat),
      (t ∈ deriveMc2ProcessList masterMd (some mc2Md)
        ↔ ∃ p ∈ masterMd, p.ts = t ∧ p ∉ mc2Md)
      ∧ (deriveMc2ProcessList masterMd (some mc2Md)).Pairwise (· < ·)) := by
  constructor
  · intro mc2Ts alignTs
    refine ⟨by cases alignTs <;> rfl, ?_⟩
    cases alignTs <;> exact sortedUniqueTs_strict _
  · intro masterMd mc2Md t
    refine ⟨?_, sortedUniqueTs_strict _⟩
    show t ∈ sortedUniqueTs ((masterMd.filter (fun p => !mc2Md.contains p)).map TsAngle.ts) ↔ _
    rw [mem_sortedUniqueTs]
    simp only [List.mem_map, List.mem_filter]
    constructor
    · rintro ⟨p, ⟨hm, hc⟩, rfl⟩
      exact ⟨p, hm, rfl, by simpa using (contains_false_iff _ _).mp (by simpa using hc)⟩
    · rintro ⟨p, hm, rfl, hnot⟩
      exact ⟨p, ⟨hm, by simpa using (contains_false_iff _ _).mpr hnot⟩, rfl⟩

/-- Witness for the amended C9 at a concrete input. -/
theorem scope_derivation_witness :
    deriveAlignProcessList [3, 1, 3] (some [1])
      = specScopeFromDone [3, 1, 3] (some [1]) :=
  (scope_derivation.1 [3, 1, 3] (some [1])).1

